import Mathlib

/-!
Verification development for the content-addressed file catalog and
reconciliation engine (backend/app/services/scanner.py,
backend/app/services/reconciler.py, backend/app/database.py).

The SQLite-backed catalog is embedded shallowly: table rows become Lean
structures, the database state is a `Catalog` record of row lists, and the
scanner / reconciler services become pure functions threading that state.
Timestamps (SQLite datetime strings) are modelled as a single `Nat` instant
passed to each operation; AUTOINCREMENT ids are explicit counters.
The filesystem is a finite map from path strings to entries; a path is
`absent` (stat and open raise), `unreadable` (stat succeeds, reading raises),
or `readable h sz` (its bytes hash to `h`, a nonempty MD5 hex digest in the
real program, and stat reports size `sz`).

Tables not touched by any verified property (file_metadata, metadata_keys,
tags, collections) and the best-effort mutagen metadata fields (duration,
sample_rate, bit_depth, channels, title, artist, album) are omitted: they are
carried opaquely by the code and no claim mentions them.
-/

namespace Catalogue

/-- Filesystem entry for one path, as observed by stat / open / read. -/
inductive FSEntry where
  | absent : FSEntry
  | unreadable (size : Nat) : FSEntry
  | readable (hash : String) (size : Nat) : FSEntry
  deriving Repr, DecidableEq

/-- Finite filesystem: association list from path to entry; missing keys are absent. -/
structure FS where
  entries : List (String × FSEntry)
  deriving Repr, DecidableEq

def FS.lookup (fs : FS) (p : String) : FSEntry :=
  match fs.entries.find? (fun e => e.1 == p) with
  | some e => e.2
  | none => FSEntry.absent

/-- Path.exists() in Python: true for any present entry, readable or not. -/
def FS.existsB (fs : FS) (p : String) : Bool :=
  match fs.lookup p with
  | FSEntry.absent => false
  | _ => true

/-- Path.stat().st_size: raises (none) when the path is absent. -/
def statOf (fs : FS) (p : String) : Option Nat :=
  match fs.lookup p with
  | FSEntry.absent => none
  | FSEntry.unreadable sz => some sz
  | FSEntry.readable _ sz => some sz

/-- Body of the try-block of scanner.get_file_hash: open the stream and fold
every chunk into the digest; an open or mid-read failure raises (none). -/
def get_file_hash_raw (fs : FS) (p : String) : Option String :=
  match fs.lookup p with
  | FSEntry.readable h _ => some h
  | _ => none

/-- scanner.get_file_hash: the except-branch catches every failure of the
try-block and returns the empty string as sentinel. -/
def get_file_hash (fs : FS) (p : String) : String :=
  (get_file_hash_raw fs p).getD ""

/-- Row of the files table (database.py): columns not consumed by any claim
(created_at, alias, duration, sample_rate, bit_depth, channels) omitted. -/
structure FileRow where
  id : Nat
  file_hash : String
  format : String
  file_size : Nat
  indexed : Bool
  deriving Repr, DecidableEq

/-- Row of the file_locations table (database.py). last_verified is the
nullable verification timestamp: none is the missing-on-disk sentinel. -/
structure LocRow where
  id : Nat
  file_id : Nat
  file_hash : String
  file_path : String
  file_name : String
  discovered_at : Nat
  last_verified : Option Nat
  is_primary : Bool
  deriving Repr, DecidableEq

/-- Row of the folders table (database.py). -/
structure FolderRow where
  id : Nat
  path : String
  last_scanned : Option Nat
  file_count : Nat
  status : String
  deriving Repr, DecidableEq

/-- The catalog database state: the three tables the claims are about, plus
the AUTOINCREMENT counters of files and file_locations. -/
structure Catalog where
  files : List FileRow
  locations : List LocRow
  folders : List FolderRow
  nextFileId : Nat
  nextLocId : Nat
  deriving Repr, DecidableEq

def Catalog.empty : Catalog :=
  { files := [], locations := [], folders := [], nextFileId := 1, nextLocId := 1 }

/-- Paths of all Location rows, in row order (SELECT file_path FROM file_locations). -/
def pathsOf (st : Catalog) : List String :=
  st.locations.map (fun l => l.file_path)

/-- Splitting of a character list on a separator character. -/
def splitOnChar (sep : Char) : List Char → List (List Char)
  | [] => [[]]
  | c :: cs =>
    match splitOnChar sep cs with
    | [] => [[]]
    | g :: gs => if c == sep then [] :: g :: gs else (c :: g) :: gs

/-- Last path component, standing in for Python Path.name. -/
def baseName (p : String) : String :=
  ⟨((splitOnChar '/' p.data).getLast?).getD p.data⟩

/-- ASCII lowercasing of one character, standing in for str.lower. -/
def lowerChar (c : Char) : Char :=
  if 'A' ≤ c ∧ c ≤ 'Z' then Char.ofNat (c.toNat + 32) else c

/-- ASCII lowercasing of a string, standing in for str.lower. -/
def lowerStr (s : String) : String := ⟨s.data.map lowerChar⟩

/-- Lowercased extension, standing in for Python Path.suffix.lower(). -/
def extOf (p : String) : String :=
  let parts := splitOnChar '.' (baseName p).data
  if parts.length ≤ 1 then ""
  else "." ++ lowerStr ⟨(parts.getLast?).getD []⟩

/-- One buffered entry of files_to_insert in scanner.process_files (the
mutagen metadata fields it also carries are omitted: no claim reads them). -/
structure FileData where
  filepath : String
  filename : String
  file_hash : String
  file_size : Nat
  format : String
  deriving Repr, DecidableEq

/-- One iteration of the loop in scanner._bulk_insert_files: look the hash up
in files, create the File row when absent, then insert the Location row with
is_primary = 1 and last_verified = now. The INSERT into file_locations
violates the UNIQUE constraint on file_path when the path is already present,
raising sqlite3.IntegrityError (modelled as none). -/
def insertOne (now : Nat) (st : Catalog) (fd : FileData) : Option Catalog :=
  if st.locations.any (fun l => l.file_path == fd.filepath) then none
  else
    match st.files.find? (fun f => f.file_hash == fd.file_hash) with
    | some f =>
      some { st with
        locations := st.locations ++
          [⟨st.nextLocId, f.id, fd.file_hash, fd.filepath, fd.filename, now, some now, true⟩],
        nextLocId := st.nextLocId + 1 }
    | none =>
      some { st with
        files := st.files ++ [⟨st.nextFileId, fd.file_hash, fd.format, fd.file_size, true⟩],
        locations := st.locations ++
          [⟨st.nextLocId, st.nextFileId, fd.file_hash, fd.filepath, fd.filename, now, some now, true⟩],
        nextFileId := st.nextFileId + 1,
        nextLocId := st.nextLocId + 1 }

/-- scanner._bulk_insert_files: insert the buffered rows in order; the first
constraint violation raises, leaving the earlier inserts applied to the open
transaction (Bool result: true when every insert succeeded). -/
def bulkInsertFiles (now : Nat) (st : Catalog) : List FileData → Catalog × Bool
  | [] => (st, true)
  | fd :: rest =>
    match insertOne now st fd with
    | some st1 => bulkInsertFiles now st1 rest
    | none => (st, false)

/-- Mutable state of the candidate loop in scanner.process_files. -/
structure LoopState where
  cat : Catalog
  buffer : List FileData
  added : Nat
  skipped : Nat
  errors : Nat
  deriving Repr, DecidableEq

/-- One iteration of the candidate loop in scanner.process_files (lines
132-185): skip known paths, stat and hash the file, buffer the row, and flush
the buffer through _bulk_insert_files once it holds 100 entries. A raised
stat error, an empty hash, or a raised flush error is caught by the per-file
except-branch and counted in errors; a failed flush keeps the partially
applied inserts and leaves the buffer uncleared, exactly as the code does. -/
def processStep (fs : FS) (existing : List String) (now : Nat)
    (ls : LoopState) (p : String) : LoopState :=
  if existing.contains p then { ls with skipped := ls.skipped + 1 }
  else
    match statOf fs p with
    | none => { ls with errors := ls.errors + 1 }
    | some sz =>
      let h := get_file_hash fs p
      if h = "" then { ls with errors := ls.errors + 1 }
      else
        let buf := ls.buffer ++ [⟨p, baseName p, h, sz, extOf p⟩]
        if 100 ≤ buf.length then
          match bulkInsertFiles now ls.cat buf with
          | (st1, true) =>
            { cat := st1, buffer := [], added := ls.added + 1,
              skipped := ls.skipped, errors := ls.errors }
          | (st1, false) =>
            { cat := st1, buffer := buf, added := ls.added + 1,
              skipped := ls.skipped, errors := ls.errors + 1 }
        else { ls with buffer := buf, added := ls.added + 1 }

/-- Final flush of scanner.process_files (lines 187-189): the remaining
buffer, if any, goes through _bulk_insert_files outside the per-file try; a
constraint violation there propagates, the connection context manager rolls
the transaction back, and the caller sees the exception (modelled as none). -/
def flushFinal (now : Nat) (ls : LoopState) : Option (LoopState × Catalog) :=
  if ls.buffer.isEmpty then some (ls, ls.cat)
  else
    match bulkInsertFiles now ls.cat ls.buffer with
    | (st1, true) => some (ls, st1)
    | (_, false) => none

/-- Candidate loop plus the final flush of scanner.process_files. -/
def processLoopAndFlush (fs : FS) (st : Catalog) (cands : List String)
    (now : Nat) : Option (LoopState × Catalog) :=
  flushFinal now (cands.foldl (processStep fs (pathsOf st) now)
    { cat := st, buffer := [], added := 0, skipped := 0, errors := 0 })

/-- Test of a predicate against every suffix of a character list, the
semantics of a leading percent wildcard. -/
def anySuffix (f : List Char → Bool) : List Char → Bool
  | [] => f []
  | c :: cs => f (c :: cs) || anySuffix f cs

/-- SQLite LIKE matching of a pattern against a string, both as character
lists, with no ESCAPE clause: a percent sign matches any run of characters,
an underscore matches exactly one character, and every other character
compares ASCII-case-insensitively (SQLite folds only A-Z by default). -/
def likeMatch : List Char → List Char → Bool
  | [], s => s.isEmpty
  | '%' :: ps, s => anySuffix (likeMatch ps) s
  | '_' :: ps, s =>
    match s with
    | [] => false
    | _ :: cs => likeMatch ps cs
  | q :: ps, s =>
    match s with
    | [] => false
    | c :: cs => (lowerChar q == lowerChar c) && likeMatch ps cs

/-- SQLite LIKE on strings. -/
def sqlLike (pat s : String) : Bool :=
  likeMatch pat.data s.data

/-- Modelled from the spec: literal string-prefix matching, the plain
reading of the spec phrase counting Files reachable under the root's path
prefix, stated as its own definition to compare with the LIKE pattern the
code actually runs. -/
def literalPrefix (p s : String) : Bool :=
  p.data.isPrefixOf s.data

/-- Distinct-file count of the folder statistics query in
scanner.process_files: COUNT(DISTINCT file_id) over locations whose path
matches the LIKE pattern built as the resolved folder path followed by a
percent sign, with full SQLite LIKE semantics (ASCII case-insensitive,
underscore and percent inside the folder path acting as wildcards). -/
def distinctFileCountUnder (st : Catalog) (root : String) : Nat :=
  (((st.locations.filter (fun l => sqlLike (root ++ "%") l.file_path)).map
    (fun l => l.file_id)).dedup).length

/-- One iteration of the folder statistics loop in scanner.process_files:
recompute file_count for the root, stamp last_scanned and set status active
on the folder row with that path. -/
def updateFolderRow (now : Nat) (st : Catalog) (r : String) : Catalog :=
  let cnt := distinctFileCountUnder st r
  { st with folders := st.folders.map (fun fr =>
      if fr.path == r then
        { fr with file_count := cnt, last_scanned := some now, status := "active" }
      else fr) }

/-- Folder statistics phase of scanner.process_files (lines 191-211), run for
every scanned root. Roots are modelled as already-resolved path strings
(Path.resolve is OS state out of scope). -/
def updateFolders (now : Nat) (st : Catalog) (roots : List String) : Catalog :=
  roots.foldl (updateFolderRow now) st

/-- Statistics dictionary returned by scanner.process_files. -/
structure ScanStats where
  total : Nat
  added : Nat
  skipped : Nat
  errors : Nat
  deriving Repr, DecidableEq

/-- scanner.process_files: snapshot the known paths, run the candidate loop,
flush the remaining buffer, update folder statistics, commit, and return the
statistics; none models the uncaught final-flush failure, after which the
rolled-back database keeps its previous state. -/
def processFiles (fs : FS) (st : Catalog) (cands : List String)
    (roots : List String) (now : Nat) : Option (ScanStats × Catalog) :=
  match processLoopAndFlush fs st cands now with
  | none => none
  | some (ls, st1) =>
    some (⟨cands.length, ls.added, ls.skipped, ls.errors⟩, updateFolders now st1 roots)

/-- Insertion of one element into a list sorted by the boolean order le. -/
def insertSorted (le : α → α → Bool) (x : α) : List α → List α
  | [] => [x]
  | y :: ys => if le x y then x :: y :: ys else y :: insertSorted le x ys

/-- Insertion sort by the boolean order le, standing in for an SQL ORDER BY. -/
def sortBy (le : α → α → Bool) : List α → List α
  | [] => []
  | x :: xs => insertSorted le x (sortBy le xs)

/-- Order key of the reconciler snapshot query: ORDER BY file_id,
is_primary DESC; row id breaks the ties the SQL leaves unspecified
(matching the table-scan order SQLite produces in practice). -/
def snapLE (a b : LocRow × String) : Bool :=
  if a.1.file_id < b.1.file_id then true
  else if b.1.file_id < a.1.file_id then false
  else if a.1.is_primary && !b.1.is_primary then true
  else if b.1.is_primary && !a.1.is_primary then false
  else a.1.id ≤ b.1.id

/-- Join of the reconciler snapshot query: every location whose owning file
row exists and has indexed = 1, paired with that file's hash. -/
def joinIndexed (st : Catalog) : List (LocRow × String) :=
  st.locations.filterMap (fun l =>
    match st.files.find? (fun f => l.file_id == f.id && f.indexed) with
    | some f => some (l, f.file_hash)
    | none => none)

/-- UPDATE file_locations SET last_verified = v WHERE id = i. -/
def setLV (st : Catalog) (i : Nat) (v : Option Nat) : Catalog :=
  { st with locations := st.locations.map (fun l =>
      if l.id == i then { l with last_verified := v } else l) }

/-- UPDATE file_locations SET is_primary = b WHERE id = i. -/
def setPrimary (st : Catalog) (i : Nat) (b : Bool) : Catalog :=
  { st with locations := st.locations.map (fun l =>
      if l.id == i then { l with is_primary := b } else l) }

/-- Order key of the promotion-candidate query in reconciler.reconcile_files:
ORDER BY discovered_at ASC, with row id breaking the unspecified ties. -/
def candLE (a b : LocRow) : Bool :=
  if a.discovered_at < b.discovered_at then true
  else if b.discovered_at < a.discovered_at then false
  else a.id ≤ b.id

/-- Promotion-candidate query of reconciler.reconcile_files: the single other
location of the same file that is first by discovered_at (LIMIT 1), read from
the current uncommitted table state. -/
def promoCandidate (st : Catalog) (fid lid : Nat) : Option LocRow :=
  (sortBy candLE (st.locations.filter (fun l => l.file_id == fid && l.id != lid))).head?

/-- One entry of the missing_details list returned by reconcile_files. -/
structure MissingDetail where
  file_id : Nat
  file_hash : String
  location_id : Nat
  file_path : String
  was_primary : Bool
  deriving Repr, DecidableEq

/-- Counters and details accumulated by the reconciliation loop. -/
structure ReconAcc where
  valid : Nat
  missing : Nat
  details : List MissingDetail
  deriving Repr, DecidableEq

/-- One iteration of the loop in reconciler.reconcile_files over a snapshot
row: stamp last_verified when the path exists on disk; otherwise null it,
record the missing detail, and, when the row was primary in the snapshot,
fetch the single earliest-discovered other location and promote it only if
its own path exists on disk. -/
def reconStep (fs : FS) (now : Nat) (acc : Catalog × ReconAcc)
    (row : LocRow × String) : Catalog × ReconAcc :=
  let st := acc.1
  let a := acc.2
  let loc := row.1
  if fs.existsB loc.file_path then
    (setLV st loc.id (some now), { a with valid := a.valid + 1 })
  else
    let st1 := setLV st loc.id none
    let d : MissingDetail := ⟨loc.file_id, row.2, loc.id, loc.file_path, loc.is_primary⟩
    let a1 : ReconAcc := { a with missing := a.missing + 1, details := a.details ++ [d] }
    if loc.is_primary then
      match promoCandidate st1 loc.file_id loc.id with
      | none => (st1, a1)
      | some c =>
        if fs.existsB c.file_path then
          (setPrimary (setPrimary st1 loc.id false) c.id true, a1)
        else (st1, a1)
    else (st1, a1)

/-- Statistics dictionary returned by reconciler.reconcile_files. -/
structure ReconStats where
  total_files : Nat
  total_locations : Nat
  valid_locations : Nat
  missing_locations : Nat
  orphaned_files : Nat
  missing_details : List MissingDetail
  deriving Repr, DecidableEq

/-- reconciler.reconcile_files: snapshot the indexed locations in query
order, run the verification loop, commit, then count the orphaned files
(indexed files with no location whose last_verified is non-null) and the
total indexed files on the final state. -/
def reconcileFiles (fs : FS) (st : Catalog) (now : Nat) : ReconStats × Catalog :=
  let snap := sortBy snapLE (joinIndexed st)
  let res := snap.foldl (reconStep fs now) (st, ⟨0, 0, []⟩)
  let st1 := res.1
  let a := res.2
  let orphaned := st1.files.countP (fun f =>
    f.indexed && !(st1.locations.any (fun l => l.file_id == f.id && l.last_verified.isSome)))
  let totalF := st1.files.countP (fun f => f.indexed)
  (⟨totalF, snap.length, a.valid, a.missing, orphaned, a.details⟩, st1)

/-- Modelled from the spec (section 8, orphan detection): the number of
active Files having zero Locations with non-null last_verified, stated as
its own definition to compare with the count the code returns. -/
def orphanedCountSpec (st : Catalog) : Nat :=
  st.files.countP (fun f =>
    f.indexed && !(st.locations.any (fun l => l.file_id == f.id && l.last_verified.isSome)))

/-- Classification of one candidate path by the ingestion pipeline: the stat
succeeds and the hash is usable, so the path will be buffered for insertion. -/
def goodAt (fs : FS) (p : String) : Bool :=
  (statOf fs p).isSome && !(get_file_hash fs p == "")

/-- All paths held by the loop state: the paths of the catalog rows plus the
paths buffered for the next flush. -/
def lsPaths (ls : LoopState) : List String :=
  pathsOf ls.cat ++ ls.buffer.map (fun fd => fd.filepath)

/-- States of the catalog database reachable from the empty catalog through
completed scan and reconcile operations (a scan whose final flush raises is
rolled back by the connection context manager, leaving the prior state). -/
inductive Reach : Catalog → Prop where
  | init : Reach Catalog.empty
  | scan (fs : FS) (st : Catalog) (cands roots : List String) (now : Nat)
      (s : ScanStats) (st' : Catalog) :
      Reach st → processFiles fs st cands roots now = some (s, st') → Reach st'
  | recon (fs : FS) (st : Catalog) (now : Nat) :
      Reach st → Reach (reconcileFiles fs st now).2

section Lemmas

theorem updateFolderRow_files (now : Nat) (st : Catalog) (r : String) :
    (updateFolderRow now st r).files = st.files := rfl

theorem updateFolderRow_locations (now : Nat) (st : Catalog) (r : String) :
    (updateFolderRow now st r).locations = st.locations := rfl

theorem updateFolders_files (now : Nat) (roots : List String) :
    ∀ st : Catalog, (updateFolders now st roots).files = st.files := by
  induction roots with
  | nil => intro st; rfl
  | cons r rs ih =>
    intro st
    show (updateFolders now (updateFolderRow now st r) rs).files = st.files
    rw [ih, updateFolderRow_files]

theorem updateFolders_locations (now : Nat) (roots : List String) :
    ∀ st : Catalog, (updateFolders now st roots).locations = st.locations := by
  induction roots with
  | nil => intro st; rfl
  | cons r rs ih =>
    intro st
    show (updateFolders now (updateFolderRow now st r) rs).locations = st.locations
    rw [ih, updateFolderRow_locations]

theorem insertOne_folders {now : Nat} {st : Catalog} {fd : FileData} {st1 : Catalog}
    (h : insertOne now st fd = some st1) : st1.folders = st.folders := by
  unfold insertOne at h
  split at h
  · exact absurd h (by simp)
  · split at h <;>
    · replace h := Option.some.inj h
      rw [← h]

theorem insertOne_paths {now : Nat} {st : Catalog} {fd : FileData} {st1 : Catalog}
    (h : insertOne now st fd = some st1) :
    pathsOf st1 = pathsOf st ++ [fd.filepath] ∧ fd.filepath ∉ pathsOf st := by
  unfold insertOne at h
  split at h
  · exact absurd h (by simp)
  · rename_i hany
    have hmem : fd.filepath ∉ pathsOf st := by
      intro hmem
      apply hany
      simp only [pathsOf, List.mem_map] at hmem
      obtain ⟨l, hl, hlp⟩ := hmem
      exact List.any_eq_true.mpr ⟨l, hl, by simp [hlp]⟩
    refine ⟨?_, hmem⟩
    split at h <;> · cases h; simp [pathsOf]

theorem insertOne_fresh (now : Nat) {st : Catalog} {fd : FileData}
    (h : fd.filepath ∉ pathsOf st) :
    ∃ st1, insertOne now st fd = some st1 := by
  unfold insertOne
  have hany : st.locations.any (fun l => l.file_path == fd.filepath) = false := by
    rw [List.any_eq_false]
    intro l hl
    simp only [beq_iff_eq]
    intro hlp
    exact h (by simpa [pathsOf, hlp] using List.mem_map_of_mem (fun l => l.file_path) hl)
  simp only [hany, Bool.false_eq_true, if_false]
  cases hf : st.files.find? (fun f => f.file_hash == fd.file_hash) <;> exact ⟨_, rfl⟩

theorem bulkInsertFiles_folders (now : Nat) :
    ∀ (fds : List FileData) (st : Catalog),
      (bulkInsertFiles now st fds).1.folders = st.folders := by
  intro fds
  induction fds with
  | nil => intro st; rfl
  | cons fd rest ih =>
    intro st
    unfold bulkInsertFiles
    cases hins : insertOne now st fd with
    | some st1 => simpa using (ih st1).trans (insertOne_folders hins)
    | none => rfl

theorem bulkInsertFiles_fresh (now : Nat) :
    ∀ (fds : List FileData) (st : Catalog),
      (pathsOf st ++ fds.map (fun fd => fd.filepath)).Nodup →
      (bulkInsertFiles now st fds).2 = true ∧
      pathsOf (bulkInsertFiles now st fds).1 =
        pathsOf st ++ fds.map (fun fd => fd.filepath) := by
  intro fds
  induction fds with
  | nil => intro st _; exact ⟨rfl, by simp [bulkInsertFiles]⟩
  | cons fd rest ih =>
    intro st hnd
    have hfresh : fd.filepath ∉ pathsOf st := by
      have hdisj := (List.nodup_append.mp hnd).2.2
      intro hmem
      exact hdisj hmem (by simp)
    obtain ⟨st1, hins⟩ := insertOne_fresh now hfresh
    obtain ⟨hp1, _⟩ := insertOne_paths hins
    have hnd1 : (pathsOf st1 ++ rest.map (fun fd => fd.filepath)).Nodup := by
      rw [hp1, List.append_assoc]
      simpa using hnd
    obtain ⟨hok, hps⟩ := ih st1 hnd1
    unfold bulkInsertFiles
    rw [hins]
    exact ⟨hok, by rw [hps, hp1]; simp⟩

theorem processStep_skip {fs : FS} {existing : List String} {now : Nat}
    {ls : LoopState} {p : String} (h : existing.contains p = true) :
    processStep fs existing now ls p = { ls with skipped := ls.skipped + 1 } := by
  unfold processStep
  rw [h]
  rfl

theorem processStep_bad {fs : FS} {existing : List String} {now : Nat}
    {ls : LoopState} {p : String} (hc : existing.contains p = false)
    (hg : goodAt fs p = false) :
    processStep fs existing now ls p = { ls with errors := ls.errors + 1 } := by
  unfold processStep
  rw [hc]
  simp only [Bool.false_eq_true, if_false]
  cases hs : statOf fs p with
  | none => rfl
  | some sz =>
    have hhash : get_file_hash fs p = "" := by
      have h2 := hg
      simp only [goodAt, hs, Option.isSome_some, Bool.true_and] at h2
      simpa using h2
    simp [hhash]

theorem processStep_good {fs : FS} {existing : List String} {now : Nat}
    {ls : LoopState} {p : String} (hc : existing.contains p = false)
    (hg : goodAt fs p = true) (hfresh : p ∉ lsPaths ls)
    (hnd : (lsPaths ls).Nodup) :
    lsPaths (processStep fs existing now ls p) = lsPaths ls ++ [p] ∧
    (lsPaths (processStep fs existing now ls p)).Nodup ∧
    (processStep fs existing now ls p).added = ls.added + 1 ∧
    (processStep fs existing now ls p).skipped = ls.skipped ∧
    (processStep fs existing now ls p).errors = ls.errors ∧
    (processStep fs existing now ls p).cat.folders = ls.cat.folders := by
  obtain ⟨sz, hs⟩ : ∃ sz, statOf fs p = some sz := by
    cases hs : statOf fs p with
    | none => simp [goodAt, hs] at hg
    | some sz => exact ⟨sz, rfl⟩
  have hh : ¬ get_file_hash fs p = "" := by
    have h2 := hg
    simp only [goodAt, hs, Option.isSome_some, Bool.true_and, Bool.not_eq_eq_eq_not,
      Bool.not_true, beq_eq_false_iff_ne] at h2
    exact h2
  have hnd2 : (lsPaths ls ++ [p]).Nodup := by
    simpa [List.nodup_append] using ⟨hnd, fun hmem => hfresh hmem⟩
  have hall : pathsOf ls.cat ++
      (ls.buffer ++ [(⟨p, baseName p, get_file_hash fs p, sz, extOf p⟩ : FileData)]).map
        (fun fd => fd.filepath) = lsPaths ls ++ [p] := by
    rw [List.map_append, lsPaths, List.append_assoc]
    rfl
  obtain ⟨st1, B, heq, hpaths, hfold⟩ : ∃ st1 B,
      processStep fs existing now ls p =
        { cat := st1, buffer := B, added := ls.added + 1,
          skipped := ls.skipped, errors := ls.errors } ∧
      pathsOf st1 ++ B.map (fun fd => fd.filepath) = lsPaths ls ++ [p] ∧
      st1.folders = ls.cat.folders := by
    unfold processStep
    rw [hc]
    simp only [Bool.false_eq_true, if_false, hs]
    rw [if_neg hh]
    by_cases hlen : 100 ≤
        (ls.buffer ++ [(⟨p, baseName p, get_file_hash fs p, sz, extOf p⟩ : FileData)]).length
    · rw [if_pos hlen]
      have hndflush : (pathsOf ls.cat ++
          (ls.buffer ++ [(⟨p, baseName p, get_file_hash fs p, sz, extOf p⟩ : FileData)]).map
            (fun fd => fd.filepath)).Nodup := by
        rw [hall]; exact hnd2
      obtain ⟨hok, hps⟩ := bulkInsertFiles_fresh now _ ls.cat hndflush
      have hfold := bulkInsertFiles_folders now
        (ls.buffer ++ [(⟨p, baseName p, get_file_hash fs p, sz, extOf p⟩ : FileData)]) ls.cat
      cases hbk : bulkInsertFiles now ls.cat
          (ls.buffer ++ [(⟨p, baseName p, get_file_hash fs p, sz, extOf p⟩ : FileData)]) with
      | mk stb ok =>
        rw [hbk] at hok hps hfold
        simp only at hok hps hfold
        subst hok
        refine ⟨stb, [], rfl, ?_, hfold⟩
        rw [hps, hall]
        simp
    · rw [if_neg hlen]
      exact ⟨ls.cat, _, rfl, hall, rfl⟩
  rw [heq]
  refine ⟨hpaths, ?_, rfl, rfl, rfl, hfold⟩
  show (pathsOf st1 ++ B.map (fun fd => fd.filepath)).Nodup
  rw [hpaths]
  exact hnd2

/-- Behaviour of the candidate loop on a duplicate-free candidate list: each
path already in the existing snapshot is skipped, each fresh readable path is
added, each fresh unreadable or vanished path is counted as an error, and the
catalog-plus-buffer path list grows by exactly the fresh readable paths. -/
theorem loop_mixed (fs : FS) (existing : List String) (now : Nat) :
    ∀ (todo : List String) (ls : LoopState),
      todo.Nodup →
      (∀ p ∈ todo, existing.contains p = false → p ∉ lsPaths ls) →
      (lsPaths ls).Nodup →
      lsPaths (todo.foldl (processStep fs existing now) ls) =
        lsPaths ls ++ todo.filter (fun p => !existing.contains p && goodAt fs p) ∧
      (lsPaths (todo.foldl (processStep fs existing now) ls)).Nodup ∧
      (todo.foldl (processStep fs existing now) ls).added =
        ls.added + todo.countP (fun p => !existing.contains p && goodAt fs p) ∧
      (todo.foldl (processStep fs existing now) ls).skipped =
        ls.skipped + todo.countP (fun p => existing.contains p) ∧
      (todo.foldl (processStep fs existing now) ls).errors =
        ls.errors + todo.countP (fun p => !existing.contains p && !goodAt fs p) ∧
      (todo.foldl (processStep fs existing now) ls).cat.folders = ls.cat.folders := by
  intro todo
  induction todo with
  | nil => intro ls _ _ hnd; simp [hnd]
  | cons p rest ih =>
    intro ls hndc hfr hnd
    have hrestnd : rest.Nodup := (List.nodup_cons.mp hndc).2
    have hpnotrest : p ∉ rest := (List.nodup_cons.mp hndc).1
    rw [List.foldl_cons]
    cases hc : existing.contains p with
    | true =>
      have hcm : p ∈ existing := by simpa using hc
      rw [processStep_skip hc]
      have hls1 : lsPaths { ls with skipped := ls.skipped + 1 } = lsPaths ls := rfl
      obtain ⟨h1, h2, h3, h4, h5, h6⟩ := ih { ls with skipped := ls.skipped + 1 }
        hrestnd (by intro q hq hqc; exact hfr q (List.mem_cons_of_mem p hq) hqc)
        (by rw [hls1]; exact hnd)
      rw [hls1] at h1
      refine ⟨?_, h2, ?_, ?_, ?_, h6⟩
      · rw [h1, List.filter_cons]
        simp [hcm]
      · simpa [List.countP_cons, hcm] using h3
      · rw [h4]
        simp [List.countP_cons, hcm, Nat.add_assoc, Nat.add_comm 1]
      · simpa [List.countP_cons, hcm] using h5
    | false =>
      have hcm : p ∉ existing := by simpa using hc
      have hpfresh : p ∉ lsPaths ls := hfr p (List.mem_cons_self p rest) hc
      cases hg : goodAt fs p with
      | false =>
        rw [processStep_bad hc hg]
        have hls1 : lsPaths { ls with errors := ls.errors + 1 } = lsPaths ls := rfl
        obtain ⟨h1, h2, h3, h4, h5, h6⟩ := ih { ls with errors := ls.errors + 1 }
          hrestnd (by intro q hq hqc; exact hfr q (List.mem_cons_of_mem p hq) hqc)
          (by rw [hls1]; exact hnd)
        rw [hls1] at h1
        refine ⟨?_, h2, ?_, ?_, ?_, h6⟩
        · rw [h1, List.filter_cons]
          simp [hcm, hg]
        · simpa [List.countP_cons, hcm, hg] using h3
        · simpa [List.countP_cons, hcm] using h4
        · rw [h5]
          simp [List.countP_cons, hcm, hg, Nat.add_assoc, Nat.add_comm 1]
      | true =>
        obtain ⟨g1, g2, g3, g4, g5, g6⟩ := processStep_good hc hg hpfresh hnd
        obtain ⟨h1, h2, h3, h4, h5, h6⟩ := ih (processStep fs existing now ls p)
          hrestnd
          (by
            intro q hq hqc
            rw [g1]
            simp only [List.mem_append, List.mem_singleton]
            rintro (hmem | hqp)
            · exact hfr q (List.mem_cons_of_mem p hq) hqc hmem
            · exact hpnotrest (hqp ▸ hq))
          g2
        refine ⟨?_, h2, ?_, ?_, ?_, ?_⟩
        · rw [h1, g1, List.filter_cons, List.append_assoc]
          simp [hcm, hg]
        · rw [h3, g3, List.countP_cons]
          simp [hcm, hg, Nat.add_assoc, Nat.add_comm 1]
        · rw [h4, g4, List.countP_cons]
          simp [hcm]
        · rw [h5, g5, List.countP_cons]
          simp [hcm, hg]
        · rw [h6, g6]

theorem processStep_folders (fs : FS) (existing : List String) (now : Nat)
    (ls : LoopState) (p : String) :
    (processStep fs existing now ls p).cat.folders = ls.cat.folders := by
  by_cases hc : existing.contains p = true
  · rw [processStep_skip hc]
  · have hc2 : existing.contains p = false := by simpa using hc
    unfold processStep
    rw [hc2]
    simp only [Bool.false_eq_true, if_false]
    cases hs : statOf fs p with
    | none => rfl
    | some sz =>
      simp only [hs]
      by_cases hh : get_file_hash fs p = ""
      · rw [if_pos hh]
      · rw [if_neg hh]
        by_cases hlen : 100 ≤
            (ls.buffer ++ [(⟨p, baseName p, get_file_hash fs p, sz, extOf p⟩ : FileData)]).length
        · rw [if_pos hlen]
          cases hbk : bulkInsertFiles now ls.cat
              (ls.buffer ++ [(⟨p, baseName p, get_file_hash fs p, sz, extOf p⟩ : FileData)]) with
          | mk stb ok =>
            have hfo := bulkInsertFiles_folders now
              (ls.buffer ++ [(⟨p, baseName p, get_file_hash fs p, sz, extOf p⟩ : FileData)]) ls.cat
            rw [hbk] at hfo
            simp only at hfo
            cases ok
            · simpa using hfo
            · simpa using hfo
        · rw [if_neg hlen]

theorem loop_folders (fs : FS) (existing : List String) (now : Nat) :
    ∀ (todo : List String) (ls : LoopState),
      (todo.foldl (processStep fs existing now) ls).cat.folders = ls.cat.folders := by
  intro todo
  induction todo with
  | nil => intro ls; rfl
  | cons p rest ih =>
    intro ls
    rw [List.foldl_cons, ih, processStep_folders]

theorem flushFinal_folders {now : Nat} {ls : LoopState} {r : LoopState × Catalog}
    (h : flushFinal now ls = some r) : r.1 = ls ∧ r.2.folders = ls.cat.folders := by
  unfold flushFinal at h
  split at h
  · simp only [Option.some.injEq] at h
    rw [← h]
    exact ⟨rfl, rfl⟩
  · split at h
    · rename_i stb heq
      simp only [Option.some.injEq] at h
      rw [← h]
      have hfo := bulkInsertFiles_folders now ls.buffer ls.cat
      rw [heq] at hfo
      exact ⟨rfl, hfo⟩
    · exact absurd h (by simp)

/-- Decomposition of a completed process_files call into its candidate-loop
phase and its folder-statistics phase. -/
theorem processFiles_eq {fs : FS} {st : Catalog} {cands roots : List String}
    {now : Nat} {s : ScanStats} {st' : Catalog}
    (h : processFiles fs st cands roots now = some (s, st')) :
    ∃ ls st1, processLoopAndFlush fs st cands now = some (ls, st1) ∧
      s = ⟨cands.length, ls.added, ls.skipped, ls.errors⟩ ∧
      st' = updateFolders now st1 roots ∧ st1.folders = st.folders := by
  unfold processFiles at h
  cases hpl : processLoopAndFlush fs st cands now with
  | none => rw [hpl] at h; exact absurd h (by simp)
  | some r =>
    rw [hpl] at h
    obtain ⟨ls, st1⟩ := r
    simp only [Option.some.injEq, Prod.mk.injEq] at h
    refine ⟨ls, st1, rfl, h.1.symm, h.2.symm, ?_⟩
    have hpl2 := hpl
    unfold processLoopAndFlush at hpl2
    obtain ⟨hls, hfo⟩ := flushFinal_folders hpl2
    simp only at hfo
    rw [hfo, loop_folders]

/-- Behaviour of the loop-and-flush phase on a duplicate-free candidate list
over a catalog with duplicate-free location paths: the final flush succeeds,
the counters classify the candidates into skipped, added and errored, and the
location paths grow by exactly the fresh readable candidates. -/
theorem plf_mixed (fs : FS) (st : Catalog) (cands : List String)
    (now : Nat) (hnd : cands.Nodup) (hpn : (pathsOf st).Nodup) :
    ∃ ls st1, processLoopAndFlush fs st cands now = some (ls, st1) ∧
      ls.added = cands.countP (fun p => !(pathsOf st).contains p && goodAt fs p) ∧
      ls.skipped = cands.countP (fun p => (pathsOf st).contains p) ∧
      ls.errors = cands.countP (fun p => !(pathsOf st).contains p && !goodAt fs p) ∧
      pathsOf st1 = pathsOf st ++
        cands.filter (fun p => !(pathsOf st).contains p && goodAt fs p) ∧
      (pathsOf st1).Nodup ∧ st1.folders = st.folders := by
  have hls0 : lsPaths ⟨st, [], 0, 0, 0⟩ = pathsOf st := by simp [lsPaths]
  obtain ⟨h1, h2, h3, h4, h5, h6⟩ := loop_mixed fs (pathsOf st) now cands ⟨st, [], 0, 0, 0⟩
    hnd
    (by intro q _ hqc; rw [hls0]; simpa using hqc)
    (by rw [hls0]; exact hpn)
  rw [hls0] at h1
  set lsf := cands.foldl (processStep fs (pathsOf st) now) ⟨st, [], 0, 0, 0⟩ with hlsf
  simp only [Nat.zero_add] at h3 h4 h5
  have hflds : lsf.cat.folders = st.folders := loop_folders fs (pathsOf st) now cands _
  obtain ⟨st1, hfl, hp1, hfold1⟩ : ∃ st1,
      flushFinal now lsf = some (lsf, st1) ∧
      pathsOf st1 = lsPaths lsf ∧ st1.folders = lsf.cat.folders := by
    unfold flushFinal
    cases hbuf : lsf.buffer with
    | nil =>
      refine ⟨lsf.cat, by simp [hbuf], ?_, rfl⟩
      rw [lsPaths, hbuf]
      simp
    | cons b bs =>
      have hndf : (pathsOf lsf.cat ++ (lsf.buffer).map (fun fd => fd.filepath)).Nodup := h2
      obtain ⟨hok, hps⟩ := bulkInsertFiles_fresh now lsf.buffer lsf.cat hndf
      have hfo := bulkInsertFiles_folders now lsf.buffer lsf.cat
      cases hbk : bulkInsertFiles now lsf.cat lsf.buffer with
      | mk stb ok =>
        rw [hbk] at hok hps hfo
        simp only at hok hps hfo
        subst hok
        refine ⟨stb, ?_, hps, hfo⟩
        rw [hbuf] at hbk
        simp only [List.isEmpty_cons, Bool.false_eq_true, if_false, hbk]
  have hplf : processLoopAndFlush fs st cands now = some (lsf, st1) := by
    unfold processLoopAndFlush
    rw [← hlsf]
    exact hfl
  refine ⟨lsf, st1, hplf, h3, h4, h5, ?_, ?_, by rw [hfold1, hflds]⟩
  · rw [hp1, h1]
  · rw [hp1]
    exact h2

theorem processStep_cat (P : Catalog → Prop) {fs : FS} {existing : List String}
    {now : Nat} (hbulk : ∀ buf st, P st → P (bulkInsertFiles now st buf).1)
    (ls : LoopState) (p : String) (hP : P ls.cat) :
    P (processStep fs existing now ls p).cat := by
  by_cases hc : existing.contains p = true
  · rw [processStep_skip hc]; exact hP
  · have hc2 : existing.contains p = false := by simpa using hc
    unfold processStep
    rw [hc2]
    simp only [Bool.false_eq_true, if_false]
    cases hs : statOf fs p with
    | none => exact hP
    | some sz =>
      simp only [hs]
      by_cases hh : get_file_hash fs p = ""
      · rw [if_pos hh]; exact hP
      · rw [if_neg hh]
        by_cases hlen : 100 ≤
            (ls.buffer ++ [(⟨p, baseName p, get_file_hash fs p, sz, extOf p⟩ : FileData)]).length
        · rw [if_pos hlen]
          have hb := hbulk
            (ls.buffer ++ [(⟨p, baseName p, get_file_hash fs p, sz, extOf p⟩ : FileData)])
            ls.cat hP
          cases hbk : bulkInsertFiles now ls.cat
              (ls.buffer ++ [(⟨p, baseName p, get_file_hash fs p, sz, extOf p⟩ : FileData)]) with
          | mk stb ok =>
            rw [hbk] at hb
            simp only at hb
            cases ok
            · simpa using hb
            · simpa using hb
        · rw [if_neg hlen]; exact hP

theorem processFiles_cat (P : Catalog → Prop) {fs : FS} {st : Catalog}
    {cands roots : List String} {now : Nat} {s : ScanStats} {st' : Catalog}
    (hbulk : ∀ buf stx, P stx → P (bulkInsertFiles now stx buf).1)
    (hfold : ∀ stx rs, P stx → P (updateFolders now stx rs))
    (h : processFiles fs st cands roots now = some (s, st')) (hP : P st) : P st' := by
  obtain ⟨ls, st1, hpl, _, hst, _⟩ := processFiles_eq h
  have hloop : ∀ (todo : List String) (l : LoopState), P l.cat →
      P (List.foldl (processStep fs (pathsOf st) now) l todo).cat := by
    intro todo
    induction todo with
    | nil => intro l hl; exact hl
    | cons q rest ih =>
      intro l hl
      rw [List.foldl_cons]
      exact ih _ (processStep_cat P hbulk l q hl)
  have hlsP : P (cands.foldl (processStep fs (pathsOf st) now) ⟨st, [], 0, 0, 0⟩).cat :=
    hloop cands ⟨st, [], 0, 0, 0⟩ hP
  have hst1 : P st1 := by
    unfold processLoopAndFlush at hpl
    unfold flushFinal at hpl
    split at hpl
    · simp only [Option.some.injEq, Prod.mk.injEq] at hpl
      rw [← hpl.2]
      exact hlsP
    · split at hpl
      · rename_i stb heq
        simp only [Option.some.injEq, Prod.mk.injEq] at hpl
        rw [← hpl.2]
        have hb := hbulk
          (List.foldl (processStep fs (pathsOf st) now) ⟨st, [], 0, 0, 0⟩ cands).buffer
          (List.foldl (processStep fs (pathsOf st) now) ⟨st, [], 0, 0, 0⟩ cands).cat hlsP
        rw [heq] at hb
        simpa using hb
      · exact absurd hpl (by simp)
  rw [hst]
  exact hfold st1 roots hst1

theorem bulk_nodupPaths (now : Nat) :
    ∀ (fds : List FileData) (st : Catalog),
      (pathsOf st).Nodup → (pathsOf (bulkInsertFiles now st fds).1).Nodup := by
  intro fds
  induction fds with
  | nil => intro st h; exact h
  | cons fd rest ih =>
    intro st h
    unfold bulkInsertFiles
    cases hins : insertOne now st fd with
    | some st1 =>
      obtain ⟨hp, hfresh⟩ := insertOne_paths hins
      refine ih st1 ?_
      rw [hp]
      simpa [List.nodup_append] using ⟨h, fun hmem => hfresh hmem⟩
    | none => exact h

theorem insertOne_hashCount {now : Nat} {st : Catalog} {fd : FileData} {st1 : Catalog}
    {g : String} (h : insertOne now st fd = some st1)
    (hpos : 1 ≤ st.files.countP (fun f => f.file_hash == g)) :
    st1.files.countP (fun f => f.file_hash == g) =
      st.files.countP (fun f => f.file_hash == g) := by
  unfold insertOne at h
  split at h
  · exact absurd h (by simp)
  · cases hf : st.files.find? (fun f => f.file_hash == fd.file_hash) with
    | some f =>
      rw [hf] at h
      replace h := Option.some.inj h
      rw [← h]
    | none =>
      rw [hf] at h
      replace h := Option.some.inj h
      rw [← h]
      simp only [List.countP_append, List.countP_cons, List.countP_nil]
      have hne : fd.file_hash ≠ g := by
        intro hgg
        have hall := List.find?_eq_none.mp hf
        have : st.files.countP (fun f => f.file_hash == g) = 0 := by
          rw [List.countP_eq_zero]
          intro f hfmem
          have := hall f hfmem
          simpa [hgg] using this
        omega
      simp [hne]

theorem bulk_hashCount {now : Nat} {g : String} :
    ∀ (fds : List FileData) (st : Catalog),
      1 ≤ st.files.countP (fun f => f.file_hash == g) →
      (bulkInsertFiles now st fds).1.files.countP (fun f => f.file_hash == g) =
        st.files.countP (fun f => f.file_hash == g) := by
  intro fds
  induction fds with
  | nil => intro st _; rfl
  | cons fd rest ih =>
    intro st hpos
    unfold bulkInsertFiles
    cases hins : insertOne now st fd with
    | some st1 =>
      have heq := insertOne_hashCount hins hpos
      rw [ih st1 (by omega)]
      exact heq
    | none => rfl

theorem setLV_paths (st : Catalog) (i : Nat) (v : Option Nat) :
    pathsOf (setLV st i v) = pathsOf st := by
  unfold setLV pathsOf
  simp only [List.map_map]
  apply List.map_congr_left
  intro l _
  by_cases h : l.id = i
  · simp [h]
  · simp [h]

theorem setPrimary_paths (st : Catalog) (i : Nat) (b : Bool) :
    pathsOf (setPrimary st i b) = pathsOf st := by
  unfold setPrimary pathsOf
  simp only [List.map_map]
  apply List.map_congr_left
  intro l _
  by_cases h : l.id = i
  · simp [h]
  · simp [h]

theorem reconStep_paths (fs : FS) (now : Nat) (acc : Catalog × ReconAcc)
    (row : LocRow × String) :
    pathsOf (reconStep fs now acc row).1 = pathsOf acc.1 := by
  unfold reconStep
  dsimp only
  split
  · exact setLV_paths acc.1 row.1.id (some now)
  · split
    · split
      · exact setLV_paths acc.1 row.1.id none
      · split
        · rw [setPrimary_paths, setPrimary_paths, setLV_paths]
        · exact setLV_paths acc.1 row.1.id none
    · exact setLV_paths acc.1 row.1.id none

theorem reconcileFiles_paths (fs : FS) (st : Catalog) (now : Nat) :
    pathsOf (reconcileFiles fs st now).2 = pathsOf st := by
  unfold reconcileFiles
  have : ∀ (snap : List (LocRow × String)) (acc : Catalog × ReconAcc),
      pathsOf (snap.foldl (reconStep fs now) acc).1 = pathsOf acc.1 := by
    intro snap
    induction snap with
    | nil => intro acc; rfl
    | cons r rest ih =>
      intro acc
      rw [List.foldl_cons, ih, reconStep_paths]
  exact this _ _

theorem updateFolders_paths (now : Nat) (st : Catalog) (roots : List String) :
    pathsOf (updateFolders now st roots) = pathsOf st := by
  unfold pathsOf
  rw [updateFolders_locations]

theorem processFiles_of_plf {fs : FS} {st : Catalog} {cands : List String}
    {now : Nat} {ls : LoopState} {st1 : Catalog} (roots : List String)
    (hplf : processLoopAndFlush fs st cands now = some (ls, st1)) :
    processFiles fs st cands roots now =
      some (⟨cands.length, ls.added, ls.skipped, ls.errors⟩, updateFolders now st1 roots) := by
  unfold processFiles
  rw [hplf]

theorem updateFolderRow_path_map (now : Nat) (st : Catalog) (r : String) :
    (updateFolderRow now st r).folders.map (fun fr => fr.path) =
      st.folders.map (fun fr => fr.path) := by
  unfold updateFolderRow
  dsimp only
  rw [List.map_map]
  apply List.map_congr_left
  intro fr _
  by_cases hc : fr.path = r
  · simp [hc]
  · simp [hc]

theorem updateFolders_path_map (now : Nat) (roots : List String) :
    ∀ st : Catalog, (updateFolders now st roots).folders.map (fun fr => fr.path) =
      st.folders.map (fun fr => fr.path) := by
  induction roots with
  | nil => intro st; rfl
  | cons r rs ih =>
    intro st
    show (updateFolders now (updateFolderRow now st r) rs).folders.map (fun fr => fr.path) = _
    rw [ih, updateFolderRow_path_map]

theorem updateFolders_keep (now : Nat) :
    ∀ (roots : List String) (st : Catalog) (r : String), r ∉ roots →
      ∀ fr ∈ (updateFolders now st roots).folders, fr.path = r → fr ∈ st.folders := by
  intro roots
  induction roots with
  | nil => intro st r _ fr hmem _; exact hmem
  | cons r0 rs ih =>
    intro st r hr fr hmem hpath
    have hr0 : r ≠ r0 := fun hre => hr (hre ▸ List.mem_cons_self r0 rs)
    have hrs : r ∉ rs := fun hre => hr (List.mem_cons_of_mem r0 hre)
    have hmem1 : fr ∈ (updateFolderRow now st r0).folders :=
      ih (updateFolderRow now st r0) r hrs fr hmem hpath
    unfold updateFolderRow at hmem1
    dsimp only at hmem1
    obtain ⟨fr0, hfr0mem, hfr0eq⟩ := List.mem_map.mp hmem1
    by_cases hc : fr0.path = r0
    · exfalso
      rw [if_pos (by simp [hc])] at hfr0eq
      apply hr0
      rw [← hpath, ← hfr0eq]
      exact hc
    · rw [if_neg (by simp [hc])] at hfr0eq
      rw [← hfr0eq]
      exact hfr0mem

theorem distinctFileCountUnder_updateFolderRow (now : Nat) (st : Catalog) (r0 r : String) :
    distinctFileCountUnder (updateFolderRow now st r0) r = distinctFileCountUnder st r := by
  unfold distinctFileCountUnder
  rw [updateFolderRow_locations]

theorem updateFolders_row_spec (now : Nat) :
    ∀ (roots : List String) (st : Catalog) (r : String), roots.Nodup → r ∈ roots →
      ∀ fr ∈ (updateFolders now st roots).folders, fr.path = r →
        fr.file_count = distinctFileCountUnder st r ∧
        fr.last_scanned = some now ∧ fr.status = "active" := by
  intro roots
  induction roots with
  | nil => intro st r _ hr; exact absurd hr (by simp)
  | cons r0 rs ih =>
    intro st r hnd hr fr hmem hpath
    by_cases hrr : r = r0
    · subst hrr
      have hnr : r ∉ rs := (List.nodup_cons.mp hnd).1
      have hmem1 : fr ∈ (updateFolderRow now st r).folders :=
        updateFolders_keep now rs (updateFolderRow now st r) r hnr fr hmem hpath
      unfold updateFolderRow at hmem1
      dsimp only at hmem1
      obtain ⟨fr0, hfr0mem, hfr0eq⟩ := List.mem_map.mp hmem1
      by_cases hc : fr0.path = r
      · rw [if_pos (by simp [hc])] at hfr0eq
        rw [← hfr0eq]
        exact ⟨rfl, rfl, rfl⟩
      · exfalso
        rw [if_neg (by simp [hc])] at hfr0eq
        apply hc
        rw [← hpath, ← hfr0eq]
    · have hr2 : r ∈ rs := (List.mem_cons.mp hr).resolve_left hrr
      have hres := ih (updateFolderRow now st r0) r (List.nodup_cons.mp hnd).2 hr2 fr hmem hpath
      rwa [distinctFileCountUnder_updateFolderRow] at hres

theorem anySuffix_self {f : List Char → Bool} {s : List Char} (h : f s = true) :
    anySuffix f s = true := by
  cases s with
  | nil => simpa [anySuffix] using h
  | cons c cs => simp [anySuffix, h]

theorem anySuffix_tail {f : List Char → Bool} {c : Char} {cs : List Char}
    (h : anySuffix f cs = true) : anySuffix f (c :: cs) = true := by
  simp [anySuffix, h]

theorem likeMatch_prefix_percent :
    ∀ (r s : List Char), likeMatch (r ++ ['%']) (r ++ s) = true := by
  intro r
  induction r with
  | nil =>
    intro s
    show likeMatch ['%'] s = true
    rw [show likeMatch ['%'] s = anySuffix (likeMatch []) s from rfl]
    induction s with
    | nil => simp [anySuffix, likeMatch]
    | cons c cs ih => exact anySuffix_tail ih
  | cons c r' ih =>
    intro s
    by_cases hc : c = '%'
    · subst hc
      show likeMatch ('%' :: (r' ++ ['%'])) ('%' :: (r' ++ s)) = true
      rw [show likeMatch ('%' :: (r' ++ ['%'])) ('%' :: (r' ++ s)) =
        anySuffix (likeMatch (r' ++ ['%'])) ('%' :: (r' ++ s)) from rfl]
      exact anySuffix_tail (anySuffix_self (ih s))
    · by_cases hu : c = '_'
      · subst hu
        show likeMatch ('_' :: (r' ++ ['%'])) ('_' :: (r' ++ s)) = true
        simpa [likeMatch] using ih s
      · show likeMatch (c :: (r' ++ ['%'])) (c :: (r' ++ s)) = true
        simp [likeMatch, hc, hu, ih s]

theorem literalPrefix_implies_sqlLike (pat s : String)
    (h : literalPrefix pat s = true) : sqlLike (pat ++ "%") s = true := by
  unfold literalPrefix at h
  obtain ⟨t, ht⟩ := List.isPrefixOf_iff_prefix.mp h
  unfold sqlLike
  have hpd : (pat ++ "%").data = pat.data ++ ['%'] := by
    simp [String.data_append]
  rw [hpd, ← ht]
  exact likeMatch_prefix_percent pat.data t

end Lemmas

section Claims

/-- C1: the claim states that after any scan at most one currently-verified
Location of a File has is_primary = true. Evaluating the ingestion pipeline
on two fresh paths holding identical content shows the violation the code
produces: _bulk_insert_files inserts every new Location with is_primary = 1
and last_verified = now unconditionally, so the single File ends the scan
with one File row but two verified primary Locations. -/
theorem scan_inserts_every_location_primary_violates_invariant :
    (processFiles ⟨[("/a", FSEntry.readable "h" 4), ("/b", FSEntry.readable "h" 4)]⟩
        Catalog.empty ["/a", "/b"] [] 5).map
      (fun r => (r.1, r.2.files.length,
        r.2.locations.countP (fun l => l.is_primary && l.last_verified.isSome))) =
      some (⟨2, 2, 0, 0⟩, 1, 2) := by decide

/-- C4: for a File with exactly two Locations, A primary and B secondary,
where A's path has been deleted from disk and B's path exists, reconcile
leaves A with last_verified = NULL and is_primary = false and leaves B with
is_primary = true and last_verified set to the reconcile time. -/
theorem reconcile_demotes_missing_primary_promotes_secondary
    (fs : FS) (F : FileRow) (A B : LocRow) (fl : List FolderRow) (nf nl now : Nat)
    (hFi : F.indexed = true)
    (hAf : A.file_id = F.id) (hBf : B.file_id = F.id)
    (hAp : A.is_primary = true) (hBp : B.is_primary = false)
    (hABid : A.id ≠ B.id)
    (hAe : fs.existsB A.file_path = false)
    (hBe : fs.existsB B.file_path = true) :
    (reconcileFiles fs ⟨[F], [A, B], fl, nf, nl⟩ now).2.locations =
      [{ A with last_verified := none, is_primary := false },
       { B with is_primary := true, last_verified := some now }] := by
  unfold reconcileFiles joinIndexed
  simp [sortBy, insertSorted, snapLE, reconStep, setLV, setPrimary, promoCandidate, candLE,
    hAf, hBf, hFi, hAp, hBp, hAe, hBe, hABid, Ne.symm hABid]

theorem reconcile_demotes_missing_primary_promotes_secondary_witness :
    (reconcileFiles ⟨[("/b", FSEntry.readable "h" 10)]⟩
        ⟨[⟨1, "h", ".wav", 10, true⟩],
         [⟨1, 1, "h", "/a", "a", 0, some 0, true⟩, ⟨2, 1, "h", "/b", "b", 1, some 0, false⟩],
         [], 2, 3⟩ 7).2.locations =
      [{ (⟨1, 1, "h", "/a", "a", 0, some 0, true⟩ : LocRow) with
          last_verified := none, is_primary := false },
       { (⟨2, 1, "h", "/b", "b", 1, some 0, false⟩ : LocRow) with
          is_primary := true, last_verified := some 7 }] :=
  reconcile_demotes_missing_primary_promotes_secondary
    ⟨[("/b", FSEntry.readable "h" 10)]⟩ ⟨1, "h", ".wav", 10, true⟩
    ⟨1, 1, "h", "/a", "a", 0, some 0, true⟩ ⟨2, 1, "h", "/b", "b", 1, some 0, false⟩
    [] 2 3 7 (by decide) (by decide) (by decide) (by decide) (by decide) (by decide)
    (by decide) (by decide)

/-- C5: the orphaned_files figure returned by reconcile equals the number of
active (indexed) Files having zero Locations with non-null last_verified in
the resulting catalog state; in particular a File whose only Location is
missing from disk is counted as orphaned and its sole Location ends with
last_verified = NULL. -/
theorem reconcile_orphan_count_and_sole_location
    (fs : FS) (F : FileRow) (L : LocRow) (fl : List FolderRow) (nf nl now : Nat)
    (hFi : F.indexed = true)
    (hLf : L.file_id = F.id)
    (hLe : fs.existsB L.file_path = false) :
    (∀ (fs2 : FS) (st2 : Catalog) (now2 : Nat),
      (reconcileFiles fs2 st2 now2).1.orphaned_files =
        orphanedCountSpec (reconcileFiles fs2 st2 now2).2) ∧
    (reconcileFiles fs ⟨[F], [L], fl, nf, nl⟩ now).1.orphaned_files = 1 ∧
    (reconcileFiles fs ⟨[F], [L], fl, nf, nl⟩ now).2.locations =
      [{ L with last_verified := none }] ∧
    (reconcileFiles fs ⟨[F], [L], fl, nf, nl⟩ now).1.total_files = 1 := by
  refine ⟨fun fs2 st2 now2 => rfl, ?_⟩
  unfold reconcileFiles joinIndexed
  cases hLp : L.is_primary <;>
    simp [sortBy, insertSorted, snapLE, reconStep, setLV, setPrimary, promoCandidate, candLE,
      hFi, hLf, hLe, hLp]

theorem reconcile_orphan_count_and_sole_location_witness :
    (reconcileFiles ⟨[]⟩
        ⟨[⟨1, "h", ".wav", 10, true⟩], [⟨1, 1, "h", "/a", "a", 0, some 0, true⟩], [], 2, 2⟩
        7).1.orphaned_files = 1 ∧
    (reconcileFiles ⟨[]⟩
        ⟨[⟨1, "h", ".wav", 10, true⟩], [⟨1, 1, "h", "/a", "a", 0, some 0, true⟩], [], 2, 2⟩
        7).2.locations =
      [{ (⟨1, 1, "h", "/a", "a", 0, some 0, true⟩ : LocRow) with last_verified := none }] :=
  ⟨(reconcile_orphan_count_and_sole_location ⟨[]⟩ ⟨1, "h", ".wav", 10, true⟩
      ⟨1, 1, "h", "/a", "a", 0, some 0, true⟩ [] 2 2 7
      (by decide) (by decide) (by decide)).2.1,
   (reconcile_orphan_count_and_sole_location ⟨[]⟩ ⟨1, "h", ".wav", 10, true⟩
      ⟨1, 1, "h", "/a", "a", 0, some 0, true⟩ [] 2 2 7
      (by decide) (by decide) (by decide)).2.2.1⟩

/-- C10: when a missing primary Location is reconciled, only the single
other Location of the same File with the earliest discovered_at is examined
as the promotion candidate; when that one candidate's path does not exist on
disk, no Location of the File is promoted (and the missing one is not
demoted), even though a later-discovered Location C does exist on disk. -/
theorem reconcile_promotion_examines_only_earliest_candidate
    (fs : FS) (F : FileRow) (A B C : LocRow) (fl : List FolderRow) (nf nl now : Nat)
    (hFi : F.indexed = true)
    (hAf : A.file_id = F.id) (hBf : B.file_id = F.id) (hCf : C.file_id = F.id)
    (hAp : A.is_primary = true) (hBp : B.is_primary = false) (hCp : C.is_primary = false)
    (hABid : A.id ≠ B.id) (hACid : A.id ≠ C.id) (hBCid : B.id < C.id)
    (hBC : B.discovered_at < C.discovered_at)
    (hAe : fs.existsB A.file_path = false)
    (hBe : fs.existsB B.file_path = false)
    (hCe : fs.existsB C.file_path = true) :
    (reconcileFiles fs ⟨[F], [A, B, C], fl, nf, nl⟩ now).2.locations =
      [{ A with last_verified := none },
       { B with last_verified := none },
       { C with last_verified := some now }] := by
  unfold reconcileFiles joinIndexed
  simp [sortBy, insertSorted, snapLE, reconStep, setLV, setPrimary, promoCandidate, candLE,
    hAf, hBf, hCf, hFi, hAp, hBp, hCp, hAe, hBe, hCe, hBC,
    hABid, Ne.symm hABid, hACid, Ne.symm hACid, Nat.ne_of_lt hBCid, Nat.ne_of_gt hBCid,
    Nat.le_of_lt hBCid, Nat.not_lt.mpr (Nat.le_of_lt hBC)]

theorem reconcile_promotion_examines_only_earliest_candidate_witness :
    (reconcileFiles ⟨[("/c", FSEntry.readable "h" 10)]⟩
        ⟨[⟨1, "h", ".wav", 10, true⟩],
         [⟨1, 1, "h", "/a", "a", 5, some 0, true⟩, ⟨2, 1, "h", "/b", "b", 1, some 0, false⟩,
          ⟨3, 1, "h", "/c", "c", 2, some 0, false⟩], [], 2, 4⟩ 7).2.locations =
      [{ (⟨1, 1, "h", "/a", "a", 5, some 0, true⟩ : LocRow) with last_verified := none },
       { (⟨2, 1, "h", "/b", "b", 1, some 0, false⟩ : LocRow) with last_verified := none },
       { (⟨3, 1, "h", "/c", "c", 2, some 0, false⟩ : LocRow) with last_verified := some 7 }] :=
  reconcile_promotion_examines_only_earliest_candidate
    ⟨[("/c", FSEntry.readable "h" 10)]⟩ ⟨1, "h", ".wav", 10, true⟩
    ⟨1, 1, "h", "/a", "a", 5, some 0, true⟩ ⟨2, 1, "h", "/b", "b", 1, some 0, false⟩
    ⟨3, 1, "h", "/c", "c", 2, some 0, false⟩ [] 2 4 7
    (by decide) (by decide) (by decide) (by decide) (by decide) (by decide) (by decide)
    (by decide) (by decide) (by decide) (by decide) (by decide) (by decide) (by decide)

/-- C2: scanning two distinct fresh paths with identical content leaves
exactly one File row with that hash and exactly two Location rows, both
referencing that File; and in general, once at least one File row with a
given hash exists, a completed scan never changes the number of File rows
carrying that hash (a File is created only on first sighting, never
duplicated). -/
theorem scan_same_content_two_paths_one_file_two_locations
    (p1 p2 h : String) (s1 s2 : Nat) (roots : List String) (now : Nat)
    (hne : p1 ≠ p2) (hh : h ≠ "") :
    (∃ st', processFiles ⟨[(p1, FSEntry.readable h s1), (p2, FSEntry.readable h s2)]⟩
        Catalog.empty [p1, p2] roots now = some (⟨2, 2, 0, 0⟩, st') ∧
      st'.files.countP (fun f => f.file_hash == h) = 1 ∧
      st'.files.length = 1 ∧
      st'.locations.map (fun l => (l.file_id, l.file_path)) = [(1, p1), (1, p2)]) ∧
    (∀ (fs2 : FS) (st2 : Catalog) (c2 r2 : List String) (n2 : Nat) (g : String)
        (s : ScanStats) (st2' : Catalog),
      1 ≤ st2.files.countP (fun f => f.file_hash == g) →
      processFiles fs2 st2 c2 r2 n2 = some (s, st2') →
      st2'.files.countP (fun f => f.file_hash == g) =
        st2.files.countP (fun f => f.file_hash == g)) := by
  constructor
  · refine ⟨updateFolders now
      ⟨[⟨1, h, extOf p1, s1, true⟩],
       [⟨1, 1, h, p1, baseName p1, now, some now, true⟩,
        ⟨2, 1, h, p2, baseName p2, now, some now, true⟩], [], 2, 3⟩ roots, ?_, ?_, ?_, ?_⟩
    · unfold processFiles processLoopAndFlush flushFinal
      simp [processStep, statOf, FS.lookup, get_file_hash, get_file_hash_raw, pathsOf,
        bulkInsertFiles, insertOne, Catalog.empty, hne, Ne.symm hne, hh]
    · rw [updateFolders_files]
      simp
    · rw [updateFolders_files]
      rfl
    · rw [updateFolders_locations]
      simp
  · intro fs2 st2 c2 r2 n2 g s st2' hpos heq
    exact processFiles_cat
      (fun x => x.files.countP (fun f => f.file_hash == g) =
        st2.files.countP (fun f => f.file_hash == g))
      (fun buf stx hx => by
        show (bulkInsertFiles n2 stx buf).1.files.countP (fun f => f.file_hash == g) =
          st2.files.countP (fun f => f.file_hash == g)
        simp only at hx
        rw [bulk_hashCount buf stx (by rw [hx]; exact hpos)]
        exact hx)
      (fun stx rs hx => by
        show (updateFolders n2 stx rs).files.countP (fun f => f.file_hash == g) =
          st2.files.countP (fun f => f.file_hash == g)
        simp only at hx
        rw [updateFolders_files]
        exact hx)
      heq rfl

theorem scan_same_content_two_paths_one_file_two_locations_witness :
    ("/a" : String) ≠ "/b" ∧ ("h" : String) ≠ "" ∧
    (∃ st', processFiles ⟨[("/a", FSEntry.readable "h" 4), ("/b", FSEntry.readable "h" 4)]⟩
        Catalog.empty ["/a", "/b"] [] 5 = some (⟨2, 2, 0, 0⟩, st') ∧
      st'.files.countP (fun f => f.file_hash == "h") = 1 ∧
      st'.files.length = 1 ∧
      st'.locations.map (fun l => (l.file_id, l.file_path)) = [(1, "/a"), (1, "/b")]) :=
  ⟨by decide, by decide,
   (scan_same_content_two_paths_one_file_two_locations "/a" "/b" "h" 4 4 [] 5
      (by decide) (by decide)).1⟩

/-- C6, counterexample: the claim says the Hasher fails with
UnreadableFileError on an unreadable input. The code's get_file_hash catches
every failure of its read loop and returns the empty string instead: on a
present-but-unreadable path the raw read errors, yet the function returns
the normal value "" and process_files completes, merely counting the file in
errors. The Hasher never surfaces an error value to its caller. -/
theorem hasher_swallows_error_returns_empty_counterexample :
    get_file_hash ⟨[("/f.wav", FSEntry.unreadable 7)]⟩ "/f.wav" = "" ∧
    get_file_hash_raw ⟨[("/f.wav", FSEntry.unreadable 7)]⟩ "/f.wav" = none ∧
    processFiles ⟨[("/f.wav", FSEntry.unreadable 7)]⟩ Catalog.empty ["/f.wav"] [] 3 =
      some (⟨1, 0, 0, 1⟩, Catalog.empty) := by decide

/-- C6, amended: for every input file whose stream cannot be read, the
Hasher catches the failure internally and returns the empty-string sentinel;
the ingestion pipeline detects the sentinel and treats it as a per-file
error, counted in errors while the rest of the batch is still processed and
a statistics object is returned. -/
theorem unreadable_file_counted_error_batch_continues
    (fs : FS) (st : Catalog) (p : String) (sz : Nat) (rest roots : List String) (now : Nat)
    (hu : fs.lookup p = FSEntry.unreadable sz)
    (hpn : (pathsOf st).Nodup)
    (hfresh : p ∉ pathsOf st)
    (hrnd : rest.Nodup) (hprest : p ∉ rest)
    (hrfresh : ∀ q ∈ rest, q ∉ pathsOf st)
    (hrgood : ∀ q ∈ rest, goodAt fs q = true) :
    get_file_hash fs p = "" ∧
    ∃ st', processFiles fs st (p :: rest) roots now =
      some (⟨rest.length + 1, rest.length, 0, 1⟩, st') := by
  have hhash : get_file_hash fs p = "" := by
    simp [get_file_hash, get_file_hash_raw, hu]
  have hgbad : goodAt fs p = false := by
    simp [goodAt, statOf, hu, hhash]
  have hcp : (pathsOf st).contains p = false := by simpa using hfresh
  have hcr : ∀ q ∈ rest, (pathsOf st).contains q = false :=
    fun q hq => by simpa using hrfresh q hq
  have hndc : (p :: rest).Nodup := List.nodup_cons.mpr ⟨hprest, hrnd⟩
  obtain ⟨ls, st1, hplf, ha, hs, he, _, _, _⟩ := plf_mixed fs st (p :: rest) now hndc hpn
  have ha2 : ls.added = rest.length := by
    rw [ha, List.countP_cons]
    simp only [hcp, hgbad, Bool.and_false, if_false, Nat.add_zero]
    exact List.countP_eq_length.mpr (fun q hq => by simp [hrfresh q hq, hrgood q hq])
  have hs2 : ls.skipped = 0 := by
    rw [hs, List.countP_cons]
    simp only [hcp, if_false, Nat.add_zero]
    exact List.countP_eq_zero.mpr (fun q hq => by simp [hrfresh q hq])
  have he2 : ls.errors = 1 := by
    rw [he, List.countP_cons]
    simp only [hcp, hgbad, Bool.not_false, Bool.and_true, if_pos]
    rw [List.countP_eq_zero.mpr (fun q hq => by simp [hrfresh q hq, hrgood q hq])]
  refine ⟨hhash, updateFolders now st1 roots, ?_⟩
  rw [processFiles_of_plf roots hplf, ha2, hs2, he2, List.length_cons]

theorem unreadable_file_counted_error_batch_continues_witness :
    get_file_hash ⟨[("/u.wav", FSEntry.unreadable 7), ("/g.wav", FSEntry.readable "h" 4)]⟩
      "/u.wav" = "" ∧
    ∃ st', processFiles ⟨[("/u.wav", FSEntry.unreadable 7), ("/g.wav", FSEntry.readable "h" 4)]⟩
        Catalog.empty ["/u.wav", "/g.wav"] [] 3 = some (⟨2, 1, 0, 1⟩, st') :=
  unreadable_file_counted_error_batch_continues
    ⟨[("/u.wav", FSEntry.unreadable 7), ("/g.wav", FSEntry.readable "h" 4)]⟩
    Catalog.empty "/u.wav" 7 ["/g.wav"] [] 3
    (by decide) (by decide) (by decide) (by decide) (by decide)
    (by intro q hq; simp at hq; subst hq; decide)
    (by intro q hq; simp at hq; subst hq; decide)

/-- C7, counterexample: the claim says that registering a candidate path
already recorded as a Location of a different File surfaces a caller-visible
failure for that file. Evaluating the pipeline on a path that is a Location
of File 1 while its current content hashes to File 2's hash shows the code
counting the path in skipped (errors = 0) and leaving the catalog unchanged:
no failure of any kind is surfaced for that file. -/
theorem known_path_other_file_counted_skipped_counterexample :
    processFiles ⟨[("/p", FSEntry.readable "h2" 3)]⟩
      ⟨[⟨1, "h1", ".wav", 3, true⟩, ⟨2, "h2", ".wav", 3, true⟩],
       [⟨1, 1, "h1", "/p", "p", 0, some 0, true⟩], [], 3, 2⟩ ["/p"] [] 9 =
      some (⟨1, 0, 1, 0⟩,
        ⟨[⟨1, "h1", ".wav", 3, true⟩, ⟨2, "h2", ".wav", 3, true⟩],
         [⟨1, 1, "h1", "/p", "p", 0, some 0, true⟩], [], 3, 2⟩) := by decide

/-- C7, amended: a candidate path already recorded as a Location (of any
File, including a different one) is never re-registered: the pipeline counts
it as skipped, not as an error or failure, the unique-path invariant is
preserved, the remaining candidates are still processed, and a statistics
object is returned. -/
theorem known_path_skipped_unique_path_preserved
    (fs : FS) (st : Catalog) (p : String) (rest roots : List String) (now : Nat)
    (hpn : (pathsOf st).Nodup)
    (hmem : p ∈ pathsOf st)
    (hrnd : rest.Nodup)
    (hrfresh : ∀ q ∈ rest, q ∉ pathsOf st)
    (hrgood : ∀ q ∈ rest, goodAt fs q = true) :
    ∃ st', processFiles fs st (p :: rest) roots now =
      some (⟨rest.length + 1, rest.length, 1, 0⟩, st') ∧
      pathsOf st' = pathsOf st ++ rest ∧ (pathsOf st').Nodup := by
  have hcp : (pathsOf st).contains p = true := by simpa using hmem
  have hcr : ∀ q ∈ rest, (pathsOf st).contains q = false :=
    fun q hq => by simpa using hrfresh q hq
  have hprest : p ∉ rest := fun hp => hrfresh p hp hmem
  have hndc : (p :: rest).Nodup := List.nodup_cons.mpr ⟨hprest, hrnd⟩
  obtain ⟨ls, st1, hplf, ha, hs, he, hp1, hnd1, _⟩ := plf_mixed fs st (p :: rest) now hndc hpn
  have ha2 : ls.added = rest.length := by
    rw [ha, List.countP_cons]
    simp only [hcp, Bool.not_true, Bool.false_and, if_false, Nat.add_zero]
    exact List.countP_eq_length.mpr (fun q hq => by simp [hrfresh q hq, hrgood q hq])
  have hs2 : ls.skipped = 1 := by
    rw [hs, List.countP_cons]
    simp only [hcp, if_pos]
    rw [List.countP_eq_zero.mpr (fun q hq => by simp [hrfresh q hq])]
  have he2 : ls.errors = 0 := by
    rw [he, List.countP_cons]
    simp only [hcp, Bool.not_true, Bool.false_and, if_false, Nat.add_zero]
    exact List.countP_eq_zero.mpr (fun q hq => by simp [hrfresh q hq, hrgood q hq])
  have hfl : (p :: rest).filter (fun q => !(pathsOf st).contains q && goodAt fs q) = rest := by
    rw [List.filter_cons]
    simp only [hcp, Bool.not_true, Bool.false_and, Bool.false_eq_true, if_false]
    exact List.filter_eq_self.mpr (fun q hq => by simp [hrfresh q hq, hrgood q hq])
  refine ⟨updateFolders now st1 roots, ?_, ?_, ?_⟩
  · rw [processFiles_of_plf roots hplf, ha2, hs2, he2, List.length_cons]
  · rw [updateFolders_paths, hp1, hfl]
  · rw [updateFolders_paths]
    exact hnd1

theorem known_path_skipped_unique_path_preserved_witness :
    ∃ st', processFiles ⟨[("/p", FSEntry.readable "h2" 3), ("/q", FSEntry.readable "h3" 5)]⟩
        ⟨[⟨1, "h1", ".wav", 3, true⟩, ⟨2, "h2", ".wav", 3, true⟩],
         [⟨1, 1, "h1", "/p", "p", 0, some 0, true⟩], [], 3, 2⟩ ["/p", "/q"] [] 9 =
      some (⟨2, 1, 1, 0⟩, st') ∧
      pathsOf st' = pathsOf ⟨[⟨1, "h1", ".wav", 3, true⟩, ⟨2, "h2", ".wav", 3, true⟩],
         [⟨1, 1, "h1", "/p", "p", 0, some 0, true⟩], [], 3, 2⟩ ++ ["/q"] ∧
      (pathsOf st').Nodup :=
  known_path_skipped_unique_path_preserved
    ⟨[("/p", FSEntry.readable "h2" 3), ("/q", FSEntry.readable "h3" 5)]⟩
    ⟨[⟨1, "h1", ".wav", 3, true⟩, ⟨2, "h2", ".wav", 3, true⟩],
     [⟨1, 1, "h1", "/p", "p", 0, some 0, true⟩], [], 3, 2⟩ "/p" ["/q"] [] 9
    (by decide) (by decide) (by decide)
    (by intro q hq; simp at hq; subst hq; decide)
    (by intro q hq; simp at hq; subst hq; decide)

/-- C3: running the ingestion pipeline twice on the same candidate list with
no filesystem change in between yields added = N, skipped = 0, errors = 0 on
the first run and added = 0, skipped = N = total of the first run on the
second: a candidate path already recorded as a Location is counted as
skipped and never reprocessed. -/
theorem scan_twice_idempotent
    (fs : FS) (st : Catalog) (cands roots : List String) (now1 now2 : Nat)
    (hpn : (pathsOf st).Nodup) (hnd : cands.Nodup)
    (hfresh : ∀ p ∈ cands, p ∉ pathsOf st)
    (hgood : ∀ p ∈ cands, goodAt fs p = true) :
    ∃ s1 st1 s2 st2,
      processFiles fs st cands roots now1 = some (s1, st1) ∧
      s1 = ⟨cands.length, cands.length, 0, 0⟩ ∧
      processFiles fs st1 cands roots now2 = some (s2, st2) ∧
      s2.added = 0 ∧ s2.skipped = s1.total ∧ s2.errors = 0 := by
  obtain ⟨ls, stm, hplf, ha, hs, he, hp1, hnd1, _⟩ := plf_mixed fs st cands now1 hnd hpn
  have ha2 : ls.added = cands.length :=
    ha.trans (List.countP_eq_length.mpr (fun q hq => by simp [hfresh q hq, hgood q hq]))
  have hs2 : ls.skipped = 0 :=
    hs.trans (List.countP_eq_zero.mpr (fun q hq => by simp [hfresh q hq]))
  have he2 : ls.errors = 0 :=
    he.trans (List.countP_eq_zero.mpr (fun q hq => by simp [hfresh q hq, hgood q hq]))
  have hfl : cands.filter (fun q => !(pathsOf st).contains q && goodAt fs q) = cands :=
    List.filter_eq_self.mpr (fun q hq => by simp [hfresh q hq, hgood q hq])
  have hrun1 : processFiles fs st cands roots now1 =
      some (⟨cands.length, cands.length, 0, 0⟩, updateFolders now1 stm roots) := by
    rw [processFiles_of_plf roots hplf, ha2, hs2, he2]
  have hpaths1 : pathsOf (updateFolders now1 stm roots) = pathsOf st ++ cands := by
    rw [updateFolders_paths, hp1, hfl]
  have hnd1b : (pathsOf (updateFolders now1 stm roots)).Nodup := by
    rw [updateFolders_paths]
    exact hnd1
  have hmem2m : ∀ p ∈ cands, p ∈ pathsOf (updateFolders now1 stm roots) := by
    intro p hp
    rw [hpaths1]
    exact List.mem_append_right _ hp
  have hmem2 : ∀ p ∈ cands, (pathsOf (updateFolders now1 stm roots)).contains p = true :=
    fun p hp => by simpa using hmem2m p hp
  obtain ⟨ls2, stm2, hplf2, ha', hs', he', _, _, _⟩ :=
    plf_mixed fs (updateFolders now1 stm roots) cands now2 hnd hnd1b
  have ha2' : ls2.added = 0 :=
    ha'.trans (List.countP_eq_zero.mpr (fun q hq => by simp [hmem2m q hq]))
  have hs2' : ls2.skipped = cands.length :=
    hs'.trans (List.countP_eq_length.mpr (fun q hq => hmem2 q hq))
  have he2' : ls2.errors = 0 :=
    he'.trans (List.countP_eq_zero.mpr (fun q hq => by simp [hmem2m q hq]))
  refine ⟨⟨cands.length, cands.length, 0, 0⟩, updateFolders now1 stm roots,
    ⟨cands.length, 0, cands.length, 0⟩, updateFolders now2 stm2 roots,
    hrun1, rfl, ?_, rfl, rfl, rfl⟩
  rw [processFiles_of_plf roots hplf2, ha2', hs2', he2']

theorem scan_twice_idempotent_witness :
    ∃ s1 st1 s2 st2,
      processFiles ⟨[("/a", FSEntry.readable "h" 4)]⟩ Catalog.empty ["/a"] [] 1 =
        some (s1, st1) ∧
      s1 = ⟨1, 1, 0, 0⟩ ∧
      processFiles ⟨[("/a", FSEntry.readable "h" 4)]⟩ st1 ["/a"] [] 2 = some (s2, st2) ∧
      s2.added = 0 ∧ s2.skipped = s1.total ∧ s2.errors = 0 :=
  scan_twice_idempotent ⟨[("/a", FSEntry.readable "h" 4)]⟩ Catalog.empty ["/a"] [] 1 2
    (by decide) (by decide)
    (by intro p hp; simp at hp; subst hp; decide)
    (by intro p hp; simp at hp; subst hp; decide)

/-- C8: in every catalog state reachable from the empty catalog through
completed scan and reconcile operations, no two Location rows share the same
path. -/
theorem reachable_catalog_location_paths_unique (st : Catalog) (h : Reach st) :
    (pathsOf st).Nodup := by
  induction h with
  | init => simp [pathsOf, Catalog.empty]
  | scan fs st0 cands roots now s st' _ heq ih =>
    exact processFiles_cat (fun x => (pathsOf x).Nodup)
      (fun buf stx hx => bulk_nodupPaths now buf stx hx)
      (fun stx rs hx => by
        show (pathsOf (updateFolders now stx rs)).Nodup
        rw [updateFolders_paths]
        exact hx)
      heq ih
  | recon fs st0 now _ ih =>
    rw [reconcileFiles_paths]
    exact ih

theorem reachable_catalog_location_paths_unique_witness :
    (pathsOf ⟨[⟨1, "h", "", 4, true⟩],
      [⟨1, 1, "h", "/a", "a", 5, some 5, true⟩, ⟨2, 1, "h", "/b", "b", 5, some 5, true⟩],
      [], 2, 3⟩).Nodup :=
  reachable_catalog_location_paths_unique _
    (Reach.scan ⟨[("/a", FSEntry.readable "h" 4), ("/b", FSEntry.readable "h" 4)]⟩
      Catalog.empty ["/a", "/b"] [] 5 ⟨2, 2, 0, 0⟩ _ Reach.init (by decide))

/-- C9, counterexample: the claim says file_count is recomputed as the
number of distinct Files reachable under the root's path prefix. The code
runs a SQLite LIKE query, which compares ASCII-case-insensitively: scanning
root /LIB over a catalog whose only Location path is /lib/a sets that
folder's file_count to 1, although zero Location paths carry /LIB as a
literal prefix. -/
theorem folder_count_uses_like_not_literal_prefix_counterexample :
    processFiles ⟨[]⟩
      ⟨[⟨1, "h", "", 3, true⟩], [⟨1, 1, "h", "/lib/a", "a", 0, some 0, true⟩],
       [⟨1, "/LIB", none, 0, "processing"⟩], 2, 2⟩ [] ["/LIB"] 9 =
      some (⟨0, 0, 0, 0⟩,
        ⟨[⟨1, "h", "", 3, true⟩], [⟨1, 1, "h", "/lib/a", "a", 0, some 0, true⟩],
         [⟨1, "/LIB", some 9, 1, "active"⟩], 2, 2⟩) ∧
    (([⟨1, 1, "h", "/lib/a", "a", 0, some 0, true⟩] : List LocRow).filter
      (fun l => literalPrefix "/LIB" l.file_path)).length = 0 := by decide

/-- C9, amended: after the candidates of a completed scan are processed,
every FolderRow whose path is one of the scanned roots carries file_count
equal to the number of distinct Files whose Locations match the root's
SQLite LIKE prefix pattern (the root followed by a percent sign, compared
ASCII-case-insensitively, underscore and percent inside the root acting as
wildcards) - a superset of the paths literally under the root's prefix,
as the last conjunct shows - together with last_scanned equal to the scan
time and status active; folder rows are neither added nor removed. -/
theorem scan_updates_folder_stats
    (fs : FS) (st : Catalog) (cands roots : List String) (now : Nat) (r : String)
    (s : ScanStats) (st' : Catalog)
    (hnd : roots.Nodup) (hr : r ∈ roots)
    (h : processFiles fs st cands roots now = some (s, st')) :
    (∀ fr ∈ st'.folders, fr.path = r →
      fr.file_count = distinctFileCountUnder st' r ∧
      fr.last_scanned = some now ∧ fr.status = "active") ∧
    st'.folders.map (fun fr => fr.path) = st.folders.map (fun fr => fr.path) ∧
    (∀ (pat q : String), literalPrefix pat q = true → sqlLike (pat ++ "%") q = true) := by
  obtain ⟨ls, st1, hpl, hs, hst, hfolders⟩ := processFiles_eq h
  subst hst
  refine ⟨?_, ?_, fun pat q hpq => literalPrefix_implies_sqlLike pat q hpq⟩
  · intro fr hmem hpath
    have hspec := updateFolders_row_spec now roots st1 r hnd hr fr hmem hpath
    have hcount : distinctFileCountUnder (updateFolders now st1 roots) r =
        distinctFileCountUnder st1 r := by
      unfold distinctFileCountUnder
      rw [updateFolders_locations]
    rw [hcount]
    exact hspec
  · rw [updateFolders_path_map, hfolders]

theorem scan_updates_folder_stats_witness :
    (⟨1, "/lib", some 5, 2, "active"⟩ : FolderRow).file_count =
      distinctFileCountUnder
        ⟨[⟨1, "h1", ".wav", 4, true⟩, ⟨2, "h2", ".wav", 4, true⟩],
         [⟨1, 1, "h1", "/lib/kick.wav", "kick.wav", 5, some 5, true⟩,
          ⟨2, 2, "h2", "/lib/snare.wav", "snare.wav", 5, some 5, true⟩],
         [⟨1, "/lib", some 5, 2, "active"⟩], 3, 3⟩ "/lib" ∧
    (⟨1, "/lib", some 5, 2, "active"⟩ : FolderRow).last_scanned = some 5 ∧
    (⟨1, "/lib", some 5, 2, "active"⟩ : FolderRow).status = "active" :=
  (scan_updates_folder_stats
    ⟨[("/lib/kick.wav", FSEntry.readable "h1" 4), ("/lib/snare.wav", FSEntry.readable "h2" 4)]⟩
    ⟨[], [], [⟨1, "/lib", none, 0, "processing"⟩], 1, 1⟩
    ["/lib/kick.wav", "/lib/snare.wav"] ["/lib"] 5 "/lib" ⟨2, 2, 0, 0⟩
    ⟨[⟨1, "h1", ".wav", 4, true⟩, ⟨2, "h2", ".wav", 4, true⟩],
     [⟨1, 1, "h1", "/lib/kick.wav", "kick.wav", 5, some 5, true⟩,
      ⟨2, 2, "h2", "/lib/snare.wav", "snare.wav", 5, some 5, true⟩],
     [⟨1, "/lib", some 5, 2, "active"⟩], 3, 3⟩
    (by decide) (by decide) rfl).1
    ⟨1, "/lib", some 5, 2, "active"⟩ (by decide) rfl

end Claims

end Catalogue
